import Mathlib

/-!
Verification of the contact-book program (`home_work_7.py`): the `Phone`,
`Birthday`, `Record` and `AddressBook` entities and the
`get_upcoming_birthdays` query, shallowly embedded in Lean.

Strings are modelled as Lean `String`s restricted to the ASCII range, on
which Python's `str.isdigit` and the `\d` class of `strptime` coincide with
`Char.isDigit`.  Python dates are modelled by a `Date` record of numerals
with the proleptic-Gregorian ordinal (`date.toordinal`) used for
subtraction and weekday computation, exactly as `datetime.date` defines
them.  Fallible Python constructors (which raise `ValueError`) are
modelled with `Except String`, carrying the raised message.
-/

/-- Gregorian leap-year test, as `calendar.isleap` / `datetime` use it. -/
def isLeap (y : Nat) : Bool :=
  (y % 4 == 0 && y % 100 != 0) || y % 400 == 0

/-- Length of month `m` of year `y` (months numbered 1-12). -/
def daysInMonth (y m : Nat) : Nat :=
  if m = 2 then (if isLeap y then 29 else 28)
  else if m = 4 ∨ m = 6 ∨ m = 9 ∨ m = 11 then 30
  else 31

/-- A calendar date, as Python's `datetime.date` triple. -/
structure Date where
  year : Nat
  month : Nat
  day : Nat
deriving DecidableEq, Repr

/-- Calendar validity of a date (Python additionally bounds the year by
9999; that bound is enforced where `date` objects are constructed,
in `Date.replaceYear` and in the birthday parser's 4-digit year). -/
def Date.validDate (d : Date) : Bool :=
  1 ≤ d.year && 1 ≤ d.month && d.month ≤ 12 && 1 ≤ d.day && d.day ≤ daysInMonth d.year d.month

/-- Days in all years before year `y` (proleptic Gregorian),
as in CPython's `_days_before_year`. -/
def daysBeforeYear (y : Nat) : Nat :=
  365 * (y - 1) + (y - 1) / 4 - (y - 1) / 100 + (y - 1) / 400

/-- Days in year `y` before month `m`, as in CPython's `_days_before_month`. -/
def daysBeforeMonth (y m : Nat) : Nat :=
  (List.range (m - 1)).foldl (fun acc k => acc + daysInMonth y (k + 1)) 0

/-- Python's `date.toordinal`: day 1 is 0001-01-01. -/
def Date.toordinal (d : Date) : Nat :=
  daysBeforeYear d.year + daysBeforeMonth d.year d.month + d.day

/-- Python's `date.weekday`: Monday is 0, Sunday is 6. -/
def Date.weekdayNum (d : Date) : Nat :=
  (d.toordinal + 6) % 7

/-- Python's `date.__lt__`: lexicographic on (year, month, day). -/
def Date.ltDate (a b : Date) : Bool :=
  a.year < b.year ||
    (a.year == b.year &&
      (a.month < b.month || (a.month == b.month && a.day < b.day)))

/-- `(a - b).days` for two Python dates: difference of ordinals. -/
def dateDiff (a b : Date) : Int :=
  (a.toordinal : Int) - (b.toordinal : Int)

/-- The day after `d` in the Gregorian calendar. -/
def Date.nextDay (d : Date) : Date :=
  if d.day < daysInMonth d.year d.month then ⟨d.year, d.month, d.day + 1⟩
  else if d.month < 12 then ⟨d.year, d.month + 1, 1⟩
  else ⟨d.year + 1, 1, 1⟩

/-- `d + timedelta(days := n)`. -/
def Date.addDays (d : Date) : Nat → Date
  | 0 => d
  | n + 1 => d.nextDay.addDays n

/-- Python's `date.replace(year := y)`: builds `date(y, month, day)`,
raising `ValueError` when the result is not a constructible date
(notably Feb 29 of a non-leap year). -/
def Date.replaceYear (d : Date) (y : Nat) : Except String Date :=
  if y < 1 ∨ 9999 < y then .error "year is out of range"
  else if (Date.mk y d.month d.day).validDate then .ok ⟨y, d.month, d.day⟩
  else .error "day is out of range for month"

theorem one_le_daysInMonth (y m : Nat) : 1 ≤ daysInMonth y m := by
  unfold daysInMonth
  split
  · split <;> omega
  · split <;> omega

theorem daysInMonth_le (y m : Nat) : daysInMonth y m ≤ 31 := by
  unfold daysInMonth
  split
  · split <;> omega
  · split <;> omega

theorem daysBeforeMonth_succ (y m : Nat) (h : 1 ≤ m) :
    daysBeforeMonth y (m + 1) = daysBeforeMonth y m + daysInMonth y m := by
  unfold daysBeforeMonth
  have h1 : m + 1 - 1 = (m - 1) + 1 := by omega
  rw [h1, List.range_succ, List.foldl_append]
  simp
  congr 1
  omega

theorem yearDays (y : Nat) :
    daysBeforeMonth y 12 + daysInMonth y 12 = if isLeap y then 366 else 365 := by
  cases h : isLeap y <;>
    simp [daysBeforeMonth, daysInMonth, List.range_succ, h]

theorem isLeap_iff (y : Nat) :
    isLeap y = true ↔ ((y % 4 = 0 ∧ y % 100 ≠ 0) ∨ y % 400 = 0) := by
  unfold isLeap
  simp [Bool.or_eq_true, Bool.and_eq_true, beq_iff_eq, bne_iff_ne]

set_option maxHeartbeats 1000000 in
theorem daysBeforeYear_succ (y : Nat) (h : 1 ≤ y) :
    daysBeforeYear (y + 1) = daysBeforeYear y + (if isLeap y then 366 else 365) := by
  unfold daysBeforeYear
  simp only [Nat.add_sub_cancel]
  split
  · next hl => rw [isLeap_iff] at hl; omega
  · next hl => rw [isLeap_iff] at hl; omega

theorem toordinal_nextDay (d : Date) (h : d.validDate = true) :
    d.nextDay.toordinal = d.toordinal + 1 := by
  unfold Date.validDate at h
  simp only [Bool.and_eq_true, decide_eq_true_eq] at h
  obtain ⟨⟨⟨⟨hy, hm1⟩, hm2⟩, hd1⟩, hd2⟩ := h
  by_cases hday : d.day < daysInMonth d.year d.month
  · simp only [Date.nextDay, if_pos hday, Date.toordinal]
    omega
  · by_cases hmon : d.month < 12
    · simp only [Date.nextDay, if_neg hday, if_pos hmon, Date.toordinal]
      rw [daysBeforeMonth_succ d.year d.month hm1]
      omega
    · have hm12 : d.month = 12 := by omega
      simp only [Date.nextDay, if_neg hday, if_neg hmon, Date.toordinal]
      rw [daysBeforeYear_succ d.year hy, ← yearDays d.year]
      have hz : daysBeforeMonth (d.year + 1) 1 = 0 := by simp [daysBeforeMonth]
      rw [hz]
      rw [hm12] at hd2 hday
      rw [hm12]
      omega

theorem validDate_nextDay (d : Date) (h : d.validDate = true) :
    d.nextDay.validDate = true := by
  unfold Date.validDate at h
  simp only [Bool.and_eq_true, decide_eq_true_eq] at h
  obtain ⟨⟨⟨⟨hy, hm1⟩, hm2⟩, hd1⟩, hd2⟩ := h
  by_cases hday : d.day < daysInMonth d.year d.month
  · simp only [Date.nextDay, if_pos hday, Date.validDate, Bool.and_eq_true,
      decide_eq_true_eq]
    exact ⟨⟨⟨⟨hy, hm1⟩, hm2⟩, by omega⟩, by omega⟩
  · by_cases hmon : d.month < 12
    · simp only [Date.nextDay, if_neg hday, if_pos hmon, Date.validDate, Bool.and_eq_true,
        decide_eq_true_eq]
      exact ⟨⟨⟨⟨hy, by omega⟩, by omega⟩, by omega⟩, one_le_daysInMonth _ _⟩
    · simp only [Date.nextDay, if_neg hday, if_neg hmon, Date.validDate, Bool.and_eq_true,
        decide_eq_true_eq]
      exact ⟨⟨⟨⟨by omega, by omega⟩, by omega⟩, by omega⟩, one_le_daysInMonth _ _⟩

theorem toordinal_addDays (d : Date) (n : Nat) (h : d.validDate = true) :
    (d.addDays n).toordinal = d.toordinal + n := by
  induction n generalizing d with
  | zero => simp [Date.addDays]
  | succ k ih =>
    simp only [Date.addDays]
    rw [ih d.nextDay (validDate_nextDay d h), toordinal_nextDay d h]
    omega

theorem validDate_addDays (d : Date) (n : Nat) (h : d.validDate = true) :
    (d.addDays n).validDate = true := by
  induction n generalizing d with
  | zero => simpa [Date.addDays]
  | succ k ih =>
    simp only [Date.addDays]
    exact ih d.nextDay (validDate_nextDay d h)

theorem weekdayNum_addDays (d : Date) (n : Nat) (h : d.validDate = true) :
    (d.addDays n).weekdayNum = (d.weekdayNum + n) % 7 := by
  unfold Date.weekdayNum
  rw [toordinal_addDays d n h]
  conv_lhs => rw [Nat.add_right_comm]
  rw [Nat.add_mod (d.toordinal + 6) n]
  rw [Nat.add_mod ((d.toordinal + 6) % 7) n]
  simp [Nat.mod_mod_of_dvd]

/-- Python's `str.isdigit` on ASCII strings: nonempty and every
character a decimal digit. -/
def strIsdigit (s : String) : Bool :=
  !s.toList.isEmpty && s.toList.all Char.isDigit

/-- Numeric value of a run of decimal digits (what `int`/`strptime`
compute for a matched digit group). -/
def natOfDigits (l : List Char) : Nat :=
  l.foldl (fun acc c => acc * 10 + (c.toNat - 48)) 0

/-- Split a character list at every `'.'` (the literal separators of the
`"%d.%m.%Y"` format). -/
def splitDots : List Char → List Char → List (List Char)
  | [], acc => [acc.reverse]
  | c :: rest, acc =>
    if c = '.' then acc.reverse :: splitDots rest []
    else splitDots rest (c :: acc)

/-- Zero-pad a numeral to two digits, as `strftime`'s `%d`/`%m`. -/
def pad2 (n : Nat) : String :=
  if n < 10 then "0" ++ toString n else toString n

/-- Zero-pad a numeral to four digits, as `strftime`'s `%Y`. -/
def pad4 (n : Nat) : String :=
  if n < 10 then "000" ++ toString n
  else if n < 100 then "00" ++ toString n
  else if n < 1000 then "0" ++ toString n
  else toString n

/-- `date.strftime("%d.%m.%Y")`. -/
def fmtDMY (d : Date) : String :=
  pad2 d.day ++ "." ++ pad2 d.month ++ "." ++ pad4 d.year

/-- `Phone.validate` (source lines 20-23): passes exactly when the string
is all digits (`str.isdigit`) and has length 10. -/
def phoneValidate (number : String) : Bool :=
  !(!strIsdigit number || number.length != 10)

/-- The message raised by `Phone.validate`. -/
def phoneErrMsg : String := "Wrong format! Phone number must be 10 digits long."

/-- The `Phone` constructor (source lines 15-18): validates, then stores
the string unchanged as the field value. -/
def mkPhone (number : String) : Except String String :=
  if !strIsdigit number || number.length != 10 then .error phoneErrMsg
  else .ok number

/-- `Field.__str__`: renders the stored string value, the identity here. -/
def fieldStr (value : String) : String := value

/-- The `"%d.%m.%Y"` parse performed by `datetime.strptime` (CPython
`_strptime`): the day group matches `3[01]|[12]\d|0[1-9]|[1-9]` (one or
two digits, value 1-31), the month group `1[0-2]|0[1-9]|[1-9]` (one or
two digits, value 1-12), the year group exactly four digits; nothing may
remain unconsumed; then `datetime(year, month, day)` additionally
requires `1 <= year` and the day to exist in the month. -/
def parseDMY (s : String) : Option Date :=
  match splitDots s.toList [] with
  | [ds, ms, ys] =>
    let d := natOfDigits ds
    let m := natOfDigits ms
    let y := natOfDigits ys
    if ds.all Char.isDigit && 1 ≤ ds.length && ds.length ≤ 2 && 1 ≤ d && d ≤ 31
        && ms.all Char.isDigit && 1 ≤ ms.length && ms.length ≤ 2 && 1 ≤ m && m ≤ 12
        && ys.all Char.isDigit && ys.length = 4
        && 1 ≤ y && d ≤ daysInMonth y m then
      some ⟨y, m, d⟩
    else none
  | _ => none

/-- The message raised by `Birthday.validate`. -/
def birthdayErrMsg : String := "Invalid date format. Use DD.MM.YYYY"

/-- A constructed `Birthday` (source lines 25-29): the stored display
string and the parsed calendar date. -/
structure Birthday where
  value : String
  date : Date
deriving DecidableEq, Repr

/-- The `Birthday` constructor (source lines 25-36): `validate` runs the
strptime parse and re-raises its failure with the fixed message; on
success the parsed date and the original string are stored. -/
def mkBirthday (value : String) : Except String Birthday :=
  match parseDMY value with
  | some d => .ok ⟨value, d⟩
  | none => .error birthdayErrMsg

/-- A contact record (source lines 38-42): name, ordered phone list
(stored `Phone.value` strings), optional birthday. -/
structure Record where
  name : String
  phones : List String
  birthday : Option Birthday
deriving DecidableEq, Repr

/-- `Record.__init__`. -/
def Record.make (name : String) : Record :=
  ⟨name, [], none⟩

/-- `Record.add_phone` (source lines 44-45): validates and appends. -/
def Record.addPhone (r : Record) (phone : String) : Except String Record :=
  (mkPhone phone).map fun p => { r with phones := r.phones ++ [p] }

/-- `Record.remove_phone` (source lines 47-48): keeps the phones whose
value differs from the removed one. -/
def Record.removePhone (r : Record) (removed : String) : Record :=
  { r with phones := r.phones.filter fun p => p != removed }

/-- The loop body of `Record.edit_phone` (source lines 50-55): scan for
the first phone equal to `old`; replace it in place with a freshly
validated `Phone`; raise when the scan falls off the end. -/
def editPhoneList (phones : List String) (old nw : String) : Except String (List String) :=
  match phones with
  | [] => .error "Phone number not found."
  | p :: rest =>
    if p = old then
      (mkPhone nw).map fun ph => ph :: rest
    else
      (editPhoneList rest old nw).map fun rest2 => p :: rest2

/-- `Record.edit_phone` (source lines 50-55). -/
def Record.editPhone (r : Record) (old nw : String) : Except String Record :=
  (editPhoneList r.phones old nw).map fun ps => { r with phones := ps }

/-- `Record.find_phone` (source lines 57-61). -/
def Record.findPhone (r : Record) (this : String) : Option String :=
  r.phones.find? fun p => p == this

/-- `Record.add_birthday` (source lines 63-64): validates and overwrites. -/
def Record.addBirthday (r : Record) (value : String) : Except String Record :=
  (mkBirthday value).map fun b => { r with birthday := some b }

/-- The address book (source line 71): a `UserDict`, i.e. an
insertion-ordered mapping from name keys to records. -/
abbrev AddressBook := List (String × Record)

/-- Python dict assignment `data[k] = v`: update the existing key in
place, else append a new entry. -/
def dictInsert (b : AddressBook) (k : String) (v : Record) : AddressBook :=
  match b with
  | [] => [(k, v)]
  | (k', v') :: rest =>
    if k' = k then (k, v) :: rest else (k', v') :: dictInsert rest k v

/-- First occurrence deletion, `del data[k]` on a dict (keys are unique,
so removing the first match is removing the match). -/
def eraseKey (b : AddressBook) (k : String) : AddressBook :=
  match b with
  | [] => []
  | (k', v) :: rest =>
    if k' = k then rest else (k', v) :: eraseKey rest k

/-- `AddressBook.add_record` (source lines 72-73). -/
def AddressBook.addRecord (b : AddressBook) (r : Record) : AddressBook :=
  dictInsert b r.name r

/-- `AddressBook.find` (source lines 75-76): `data.get(name)`. -/
def AddressBook.findName (b : AddressBook) (name : String) : Option Record :=
  (b.find? fun e => e.1 == name).map fun e => e.2

/-- `AddressBook.delete` (source lines 78-81): raise `KeyError` when the
name is absent, otherwise remove the entry. -/
def AddressBook.delete (b : AddressBook) (name : String) : Except String AddressBook :=
  if (b.find? fun e => e.1 == name).isSome then .ok (eraseKey b name)
  else .error "Name not found"

/-- `find_next_weekday` (source lines 84-88): days until the next
occurrence of `weekday` strictly after `start_date` when the offset
would be non-positive. -/
def findNextWeekday (startDate : Date) (weekday : Nat) : Date :=
  let daysAhead : Int := (weekday : Int) - (startDate.weekdayNum : Int)
  let daysAhead := if daysAhead ≤ 0 then daysAhead + 7 else daysAhead
  startDate.addDays daysAhead.toNat

/-- `adjust_for_weekend` (source lines 90-93): Saturday (5) and Sunday
(6) move to the next Monday (0); weekdays are unchanged. -/
def adjustForWeekend (birthday : Date) : Date :=
  if birthday.weekdayNum ≥ 5 then findNextWeekday birthday 0
  else birthday

/-- Lines 101-103: the birthday's month/day in this year, rolled to next
year when strictly earlier than `today`; the `replace` can raise. -/
def nextBirthdayDate (userBirthday today : Date) : Except String Date :=
  match userBirthday.replaceYear today.year with
  | .error msg => .error msg
  | .ok nb =>
    if nb.ltDate today then userBirthday.replaceYear (today.year + 1)
    else .ok nb

/-- One emitted row of `get_upcoming_birthdays`. -/
structure Congrat where
  name : String
  congratulationDate : String
deriving DecidableEq, Repr

/-- The loop body of `get_upcoming_birthdays` for one record (source
lines 99-107): skip records without a birthday; compute the next
occurrence; keep it only when `0 <= (next_birthday - today).days <= 7`;
weekend-adjust and format the kept date. -/
def processRecord (today : Date) (r : Record) : Except String (Option Congrat) :=
  match r.birthday with
  | none => .ok none
  | some b =>
    match nextBirthdayDate b.date today with
    | .error msg => .error msg
    | .ok nb =>
      if 0 ≤ dateDiff nb today ∧ dateDiff nb today ≤ 7 then
        .ok (some ⟨r.name, fmtDMY (adjustForWeekend nb)⟩)
      else
        .ok none

/-- The record loop of `get_upcoming_birthdays` (source lines 95-109),
over the dict's values in insertion order; a raise in any iteration
propagates. -/
def gubAux (today : Date) : List (String × Record) → Except String (List Congrat)
  | [] => .ok []
  | e :: rest =>
    match processRecord today e.2 with
    | .error msg => .error msg
    | .ok o =>
      match gubAux today rest with
      | .error msg => .error msg
      | .ok tail =>
        match o with
        | none => .ok tail
        | some c => .ok (c :: tail)

/-- `AddressBook.get_upcoming_birthdays` (source lines 83-109), with the
reference date `today` made an explicit parameter (the source computes
it from the wall clock at line 96). -/
def AddressBook.getUpcomingBirthdays (b : AddressBook) (today : Date) :
    Except String (List Congrat) :=
  gubAux today b

theorem mkPhone_eq (s : String) :
    mkPhone s = if phoneValidate s then .ok s else .error phoneErrMsg := by
  unfold mkPhone phoneValidate
  cases h : (!strIsdigit s || s.length != 10) <;> simp [h]

theorem mkPhone_ok_iff (s v : String) :
    mkPhone s = .ok v ↔ (phoneValidate s = true ∧ v = s) := by
  rw [mkPhone_eq]
  cases h : phoneValidate s <;> simp [h, eq_comm]

theorem phoneValidate_iff (s : String) :
    phoneValidate s = true ↔ (s.length = 10 ∧ ∀ c ∈ s.toList, c.isDigit = true) := by
  have hlen : s.length = s.toList.length := rfl
  unfold phoneValidate strIsdigit
  simp only [Bool.not_or, Bool.not_not, Bool.and_eq_true, Bool.not_eq_true',
    bne_eq_false_iff_eq, List.all_eq_true]
  constructor
  · rintro ⟨⟨hne, hall⟩, h10⟩
    exact ⟨h10, hall⟩
  · rintro ⟨h10, hall⟩
    refine ⟨⟨?_, hall⟩, h10⟩
    cases hl : s.toList with
    | nil =>
      rw [hl] at hlen
      simp at hlen
      omega
    | cons a l => rfl

/-- C5: every string of exactly 10 decimal digits constructs a `Phone`
whose stored value (and hence its `Field.__str__` rendering) is the
input string itself; every other string is rejected with
`ValueError("Wrong format! Phone number must be 10 digits long.")` and
no value is produced. -/
theorem phone_construction_contract (s : String) :
    ((s.length = 10 ∧ ∀ c ∈ s.toList, c.isDigit = true) →
      mkPhone s = .ok s ∧ fieldStr s = s)
    ∧ (¬ (s.length = 10 ∧ ∀ c ∈ s.toList, c.isDigit = true) →
      mkPhone s = .error phoneErrMsg) := by
  constructor
  · intro h
    have hv : phoneValidate s = true := (phoneValidate_iff s).mpr h
    rw [mkPhone_eq, if_pos hv]
    exact ⟨rfl, rfl⟩
  · intro h
    have hv : phoneValidate s = false := by
      cases hb : phoneValidate s
      · rfl
      · exact absurd ((phoneValidate_iff s).mp hb) h
    rw [mkPhone_eq, hv]
    simp

theorem phone_construction_contract_w :
    (mkPhone "1234567890" = .ok "1234567890" ∧ fieldStr "1234567890" = "1234567890")
    ∧ mkPhone "12345678x0" = .error phoneErrMsg :=
  ⟨(phone_construction_contract "1234567890").1 (by decide),
   (phone_construction_contract "12345678x0").2 (by decide)⟩

/-- The spec's `DD.MM.YYYY` format read literally: a two-digit day, a
dot, a two-digit month, a dot, a four-digit year, denoting a real
(proleptic) Gregorian calendar date.  Stated from the spec's words, for
comparison with the code's `strptime`-based parser `parseDMY`. -/
def isStrictDMY (s : String) : Bool :=
  match splitDots s.toList [] with
  | [ds, ms, ys] =>
    ds.all Char.isDigit && ds.length = 2
      && ms.all Char.isDigit && ms.length = 2
      && ys.all Char.isDigit && ys.length = 4
      && 1 ≤ natOfDigits ys
      && (Date.mk (natOfDigits ys) (natOfDigits ms) (natOfDigits ds)).validDate
  | _ => false

theorem strict_imp_parse (s : String) (h : isStrictDMY s = true) :
    parseDMY s = some ⟨natOfDigits ((splitDots s.toList []).get! 2),
                       natOfDigits ((splitDots s.toList []).get! 1),
                       natOfDigits ((splitDots s.toList []).get! 0)⟩ := by
  unfold isStrictDMY at h
  unfold parseDMY
  cases hsp : splitDots s.toList [] with
  | nil => rw [hsp] at h; exact absurd h (by simp)
  | cons a t1 =>
    cases t1 with
    | nil => rw [hsp] at h; exact absurd h (by simp)
    | cons b t2 =>
      cases t2 with
      | nil => rw [hsp] at h; exact absurd h (by simp)
      | cons c t3 =>
        cases t3 with
        | cons d t4 => rw [hsp] at h; exact absurd h (by simp)
        | nil =>
          rw [hsp] at h
          simp only [Bool.and_eq_true, decide_eq_true_eq] at h
          obtain ⟨⟨⟨⟨⟨⟨⟨hda, hdl⟩, hma⟩, hml⟩, hya⟩, hyl⟩, hy1⟩, hvd⟩ := h
          have hvd' := hvd
          unfold Date.validDate at hvd'
          simp only [Bool.and_eq_true, decide_eq_true_eq] at hvd'
          obtain ⟨⟨⟨⟨hy, hm1⟩, hm2⟩, hd1⟩, hd2⟩ := hvd'
          have hd31 : natOfDigits a ≤ 31 :=
            le_trans hd2 (daysInMonth_le _ _)
          have hda' := List.all_eq_true.mp hda
          have hma' := List.all_eq_true.mp hma
          have hya' := List.all_eq_true.mp hya
          simp only [List.get!]
          rw [if_pos]
          simp only [Bool.and_eq_true, decide_eq_true_eq, List.all_eq_true]
          exact ⟨⟨⟨⟨⟨⟨⟨⟨⟨⟨⟨⟨⟨hda', by omega⟩, by omega⟩, hd1⟩, hd31⟩, hma'⟩, by omega⟩,
            by omega⟩, hm1⟩, hm2⟩, hya'⟩, hyl⟩, hy⟩, hd2⟩

theorem parseDMY_validDate (s : String) (d : Date) (h : parseDMY s = some d) :
    d.validDate = true := by
  unfold parseDMY at h
  split at h
  · simp only [] at h
    split at h
    · next hc =>
      simp only [Option.some.injEq] at h
      subst h
      simp only [Bool.and_eq_true, decide_eq_true_eq] at hc
      obtain ⟨⟨⟨⟨⟨⟨⟨⟨⟨⟨⟨⟨⟨hda, hdl1⟩, hdl2⟩, hd1⟩, hd31⟩, hma⟩, hml1⟩, hml2⟩, hm1⟩,
        hm2⟩, hya⟩, hyl⟩, hy1⟩, hd2⟩ := hc
      unfold Date.validDate
      simp only [Bool.and_eq_true, decide_eq_true_eq]
      exact ⟨⟨⟨⟨hy1, hm1⟩, hm2⟩, hd1⟩, hd2⟩
    · exact absurd h (by simp)
  · exact absurd h (by simp)

/-- C6 (amended): every string in strict `DD.MM.YYYY` form denoting a
real Gregorian calendar date is accepted by the `Birthday` constructor,
which stores the original string and a real calendar date; every string
the (lenient) `strptime` parse rejects fails with
`ValueError("Invalid date format. Use DD.MM.YYYY")` and no value is
produced.  The parser is lenient, not strict: it also accepts unpadded
one-digit days and months (see the counterexample), so acceptance is
not limited to `DD.MM.YYYY` strings. -/
theorem birthday_construction_contract (s : String) :
    (isStrictDMY s = true →
      ∃ bd, mkBirthday s = .ok bd ∧ bd.value = s ∧ bd.date.validDate = true)
    ∧ (parseDMY s = none → mkBirthday s = .error birthdayErrMsg) := by
  constructor
  · intro h
    have hp := strict_imp_parse s h
    refine ⟨⟨s, _⟩, ?_, rfl, parseDMY_validDate s _ hp⟩
    unfold mkBirthday
    rw [hp]
  · intro h
    unfold mkBirthday
    rw [h]

theorem birthday_construction_contract_w :
    (∃ bd, mkBirthday "01.03.1999" = .ok bd ∧ bd.value = "01.03.1999"
      ∧ bd.date.validDate = true)
    ∧ mkBirthday "29.02.2023" = .error birthdayErrMsg :=
  ⟨(birthday_construction_contract "01.03.1999").1 rfl,
   (birthday_construction_contract "29.02.2023").2 rfl⟩

/-- C6 (counterexample): `"5.5.2024"` is not in `DD.MM.YYYY` form, yet
the `Birthday` constructor accepts it — `strptime` also matches
one-digit day and month fields — refuting "for every other string,
construction fails". -/
theorem birthday_strict_counterexample :
    mkBirthday "5.5.2024" = .ok ⟨"5.5.2024", ⟨2024, 5, 5⟩⟩
    ∧ isStrictDMY "5.5.2024" = false :=
  ⟨rfl, rfl⟩

/-- C9: a book holding a record whose birthday is Feb 29 (a value the
`Birthday` constructor accepts) makes `get_upcoming_birthdays` raise
`ValueError` when the year substituted into the date is not a leap
year (here `today.year = 2023`), instead of returning a list. -/
theorem feb29_year_replace_raises :
    mkBirthday "29.02.2020" = .ok ⟨"29.02.2020", ⟨2020, 2, 29⟩⟩
    ∧ AddressBook.getUpcomingBirthdays
        [("Ann", ⟨"Ann", [], some ⟨"29.02.2020", ⟨2020, 2, 29⟩⟩⟩)] ⟨2023, 1, 1⟩
      = .error "day is out of range for month" :=
  ⟨rfl, rfl⟩

theorem editPhoneList_not_found (phones : List String) (old nw : String)
    (h : old ∉ phones) :
    editPhoneList phones old nw = .error "Phone number not found." := by
  induction phones with
  | nil => rfl
  | cons p rest ih =>
    have hne : p ≠ old := fun he => h (by simp [he])
    have hrest : old ∉ rest := fun hm => h (by simp [hm])
    simp only [editPhoneList, if_neg hne, ih hrest]
    rfl

theorem editPhoneList_invalid (phones : List String) (old nw : String)
    (hm : old ∈ phones) (hv : phoneValidate nw = false) :
    editPhoneList phones old nw = .error phoneErrMsg := by
  induction phones with
  | nil => exact absurd hm (by simp)
  | cons p rest ih =>
    by_cases hpe : p = old
    · simp only [editPhoneList, if_pos hpe, mkPhone_eq, hv]
      rfl
    · have hrest : old ∈ rest := by
        rcases List.mem_cons.mp hm with he | hr
        · exact absurd he.symm hpe
        · exact hr
      simp only [editPhoneList, if_neg hpe, ih hrest]
      rfl

theorem editPhoneList_found (phones : List String) (old nw : String)
    (hm : old ∈ phones) (hv : phoneValidate nw = true) :
    ∃ i, i < phones.length ∧ phones.get? i = some old
      ∧ (∀ j, j < i → phones.get? j ≠ some old)
      ∧ editPhoneList phones old nw = .ok (phones.set i nw) := by
  induction phones with
  | nil => exact absurd hm (by simp)
  | cons p rest ih =>
    by_cases hpe : p = old
    · refine ⟨0, by simp, by simp [hpe], by omega, ?_⟩
      simp only [editPhoneList, if_pos hpe, mkPhone_eq, hv, if_pos]
      rfl
    · have hrest : old ∈ rest := by
        rcases List.mem_cons.mp hm with he | hr
        · exact absurd he.symm hpe
        · exact hr
      obtain ⟨i, hi, hgi, hfirst, heq⟩ := ih hrest
      refine ⟨i + 1, by simp; omega, by simpa using hgi, ?_, ?_⟩
      · intro j hj
        cases j with
        | zero => simpa using fun he => hpe he
        | succ j' => simpa using hfirst j' (by omega)
      · simp only [editPhoneList, if_neg hpe, heq]
        rfl

/-- C4: `edit_phone(old, new)` raises
`ValueError("Phone number not found.")` and produces no modified record
when no phone equals `old`; when `old` is present but `new` fails phone
validation, it raises the phone-format error and produces no modified
record (the failure happens before any write); when `old` is present
and `new` is valid, the first phone equal to `old` is replaced in place
by `new` and the list length is unchanged. -/
theorem edit_phone_contract (r : Record) (old nw : String) :
    (old ∉ r.phones → r.editPhone old nw = .error "Phone number not found.")
    ∧ (old ∈ r.phones → phoneValidate nw = false →
        r.editPhone old nw = .error phoneErrMsg)
    ∧ (old ∈ r.phones → phoneValidate nw = true →
        ∃ i, i < r.phones.length ∧ r.phones.get? i = some old
          ∧ (∀ j, j < i → r.phones.get? j ≠ some old)
          ∧ r.editPhone old nw = .ok { r with phones := r.phones.set i nw }
          ∧ (r.phones.set i nw).length = r.phones.length) := by
  refine ⟨?_, ?_, ?_⟩
  · intro h
    unfold Record.editPhone
    rw [editPhoneList_not_found r.phones old nw h]
    rfl
  · intro hm hv
    unfold Record.editPhone
    rw [editPhoneList_invalid r.phones old nw hm hv]
    rfl
  · intro hm hv
    obtain ⟨i, hi, hgi, hfirst, heq⟩ := editPhoneList_found r.phones old nw hm hv
    refine ⟨i, hi, hgi, hfirst, ?_, by simp⟩
    unfold Record.editPhone
    rw [heq]
    rfl

theorem edit_phone_contract_w :
    Record.editPhone ⟨"Ann", ["1234567890"], none⟩ "0000000000" "1112223344"
      = .error "Phone number not found."
    ∧ Record.editPhone ⟨"Ann", ["1234567890"], none⟩ "1234567890" "12345"
      = .error phoneErrMsg :=
  ⟨(edit_phone_contract ⟨"Ann", ["1234567890"], none⟩ "0000000000" "1112223344").1
     (by decide),
   (edit_phone_contract ⟨"Ann", ["1234567890"], none⟩ "1234567890" "12345").2.1
     (by decide) (by decide)⟩

theorem eraseKey_sublist (b : AddressBook) (k : String) :
    (eraseKey b k).Sublist b := by
  induction b with
  | nil => simp [eraseKey]
  | cons e rest ih =>
    obtain ⟨k', v⟩ := e
    by_cases he : k' = k
    · simp only [eraseKey, if_pos he]
      exact List.sublist_cons_self _ _
    · simp only [eraseKey, if_neg he]
      exact ih.cons₂ _

theorem eraseKey_findName_other (b : AddressBook) (k j : String) (h : j ≠ k) :
    AddressBook.findName (eraseKey b k) j = AddressBook.findName b j := by
  induction b with
  | nil => rfl
  | cons e rest ih =>
    obtain ⟨k', v⟩ := e
    by_cases he : k' = k
    · simp only [eraseKey, if_pos he]
      unfold AddressBook.findName
      have : (k' == j) = false := by
        subst he
        exact beq_false_of_ne fun hx => h hx.symm
      simp [List.find?, this]
    · simp only [eraseKey, if_neg he]
      unfold AddressBook.findName at ih ⊢
      by_cases hj : k' = j
      · simp [List.find?, hj]
      · have : (k' == j) = false := beq_false_of_ne hj
        simp only [List.find?, this]
        exact ih

theorem eraseKey_findName_self (b : AddressBook) (k : String)
    (hnd : (b.map Prod.fst).Nodup) :
    AddressBook.findName (eraseKey b k) k = none := by
  induction b with
  | nil => rfl
  | cons e rest ih =>
    obtain ⟨k', v⟩ := e
    simp only [List.map_cons, List.nodup_cons] at hnd
    obtain ⟨hnm, hnd'⟩ := hnd
    by_cases he : k' = k
    · simp only [eraseKey, if_pos he]
      subst he
      unfold AddressBook.findName
      cases hf : rest.find? fun e => e.1 == k' with
      | none => simp [hf]
      | some e2 =>
        have hmem := List.mem_of_find?_eq_some hf
        have hbe := List.find?_some hf
        have : e2.1 = k' := by simpa using hbe
        exact absurd (this ▸ List.mem_map_of_mem Prod.fst hmem) hnm
    · simp only [eraseKey, if_neg he]
      unfold AddressBook.findName at ih ⊢
      have : (k' == k) = false := beq_false_of_ne he
      simp only [List.find?, this]
      exact ih hnd'

/-- C7: `delete(name)` raises `KeyError` and produces no modified book
when the name is absent (in particular on the empty book); when the
name is present it removes exactly that entry: the deleted name no
longer resolves, every other name resolves as before, and a subsequent
`find` returns the `None` sentinel rather than raising. -/
theorem delete_contract (b : AddressBook) (name : String)
    (hnd : (b.map Prod.fst).Nodup) :
    (b.findName name = none → b.delete name = .error "Name not found")
    ∧ (∀ r, b.findName name = some r →
        b.delete name = .ok (eraseKey b name)
          ∧ AddressBook.findName (eraseKey b name) name = none
          ∧ (∀ k, k ≠ name →
              AddressBook.findName (eraseKey b name) k = b.findName k)) := by
  constructor
  · intro h
    unfold AddressBook.delete
    unfold AddressBook.findName at h
    rw [if_neg]
    rw [Option.map_eq_none'] at h
    simp [h]
  · intro r h
    unfold AddressBook.delete
    unfold AddressBook.findName at h
    rw [Option.map_eq_some'] at h
    obtain ⟨e, he, hre⟩ := h
    refine ⟨by rw [if_pos (by simp [he])], eraseKey_findName_self b name hnd, ?_⟩
    intro k hk
    exact eraseKey_findName_other b name k hk

theorem delete_contract_w :
    AddressBook.delete [] "Unknown" = .error "Name not found"
    ∧ (AddressBook.delete [("Ann", Record.make "Ann")] "Ann"
        = .ok (eraseKey [("Ann", Record.make "Ann")] "Ann")
       ∧ AddressBook.findName (eraseKey [("Ann", Record.make "Ann")] "Ann") "Ann" = none
       ∧ (∀ k, k ≠ "Ann" →
           AddressBook.findName (eraseKey [("Ann", Record.make "Ann")] "Ann") k
             = AddressBook.findName [("Ann", Record.make "Ann")] k)) :=
  ⟨(delete_contract [] "Unknown" (by simp)).1 rfl,
   (delete_contract [("Ann", Record.make "Ann")] "Ann" (by simp)).2
     (Record.make "Ann") rfl⟩

theorem dictInsert_find_self (b : AddressBook) (k : String) (v : Record) :
    AddressBook.findName (dictInsert b k v) k = some v := by
  induction b with
  | nil => simp [dictInsert, AddressBook.findName, List.find?]
  | cons e rest ih =>
    obtain ⟨k', v'⟩ := e
    by_cases he : k' = k
    · simp [dictInsert, if_pos he, AddressBook.findName, List.find?]
    · have hne : (k' == k) = false := beq_false_of_ne he
      simp only [dictInsert, if_neg he]
      unfold AddressBook.findName at ih ⊢
      simp only [List.find?, hne]
      exact ih

theorem dictInsert_find_other (b : AddressBook) (k j : String) (v : Record)
    (h : j ≠ k) :
    AddressBook.findName (dictInsert b k v) j = b.findName j := by
  induction b with
  | nil =>
    have : (k == j) = false := beq_false_of_ne fun hx => h hx.symm
    simp [dictInsert, AddressBook.findName, List.find?, this]
  | cons e rest ih =>
    obtain ⟨k', v'⟩ := e
    by_cases he : k' = k
    · have h1 : (k == j) = false := beq_false_of_ne fun hx => h hx.symm
      have h2 : (k' == j) = false := by
        subst he
        exact h1
      simp [dictInsert, if_pos he, AddressBook.findName, List.find?, h1, h2]
    · simp only [dictInsert, if_neg he]
      unfold AddressBook.findName at ih ⊢
      by_cases hj : k' = j
      · simp [List.find?, hj]
      · have : (k' == j) = false := beq_false_of_ne hj
        simp only [List.find?, this]
        exact ih

theorem mem_keys_dictInsert (b : AddressBook) (k j : String) (v : Record)
    (h : j ∈ (dictInsert b k v).map Prod.fst) :
    j ∈ b.map Prod.fst ∨ j = k := by
  induction b with
  | nil => simpa [dictInsert] using h
  | cons e rest ih =>
    obtain ⟨k', v'⟩ := e
    by_cases he : k' = k
    · simp only [dictInsert, if_pos he, List.map_cons, List.mem_cons] at h
      rcases h with h1 | h2
      · exact Or.inr h1
      · exact Or.inl (by simp [h2])
    · simp only [dictInsert, if_neg he, List.map_cons, List.mem_cons] at h
      rcases h with h1 | h2
      · exact Or.inl (by simp [h1])
      · rcases ih h2 with h3 | h4
        · exact Or.inl (by simp [h3])
        · exact Or.inr h4

theorem dictInsert_keys_nodup (b : AddressBook) (k : String) (v : Record)
    (hnd : (b.map Prod.fst).Nodup) :
    ((dictInsert b k v).map Prod.fst).Nodup := by
  induction b with
  | nil => simp [dictInsert]
  | cons e rest ih =>
    obtain ⟨k', v'⟩ := e
    simp only [List.map_cons, List.nodup_cons] at hnd
    obtain ⟨hnm, hnd'⟩ := hnd
    by_cases he : k' = k
    · simp only [dictInsert, if_pos he, List.map_cons, List.nodup_cons]
      subst he
      exact ⟨hnm, hnd'⟩
    · simp only [dictInsert, if_neg he, List.map_cons, List.nodup_cons]
      refine ⟨?_, ih hnd'⟩
      intro hmem
      rcases mem_keys_dictInsert rest k k' v hmem with h1 | h2
      · exact hnm h1
      · exact he h2

/-- C8: `add_record(record)` is total (it is a plain function that
always yields a book); it keys the entry by the record's own name:
lookup of that name afterwards yields exactly the new record (an
existing entry under that name is replaced entirely, last-write-wins),
lookup of any other name is unchanged, and the at-most-one-record-per-
name invariant (no duplicate keys) is preserved by `add_record` and by
`delete`. -/
theorem add_record_contract (b : AddressBook) (r : Record)
    (hnd : (b.map Prod.fst).Nodup) :
    (b.addRecord r).findName r.name = some r
    ∧ (∀ k, k ≠ r.name → (b.addRecord r).findName k = b.findName k)
    ∧ ((b.addRecord r).map Prod.fst).Nodup
    ∧ (∀ n b', b.delete n = .ok b' → (b'.map Prod.fst).Nodup) := by
  refine ⟨dictInsert_find_self b r.name r,
    fun k hk => dictInsert_find_other b r.name k r hk,
    dictInsert_keys_nodup b r.name r hnd, ?_⟩
  intro n b' h
  unfold AddressBook.delete at h
  by_cases hf : (b.find? fun e => e.1 == n).isSome = true
  · rw [if_pos hf] at h
    cases h
    exact hnd.sublist ((eraseKey_sublist b n).map Prod.fst)
  · rw [if_neg hf] at h
    cases h

theorem add_record_contract_w :
    (AddressBook.addRecord [("Ann", Record.make "Ann")] ⟨"Ann", ["1234567890"], none⟩).findName "Ann"
      = some ⟨"Ann", ["1234567890"], none⟩
    ∧ (∀ k, k ≠ "Ann" →
        (AddressBook.addRecord [("Ann", Record.make "Ann")] ⟨"Ann", ["1234567890"], none⟩).findName k
          = AddressBook.findName [("Ann", Record.make "Ann")] k)
    ∧ ((AddressBook.addRecord [("Ann", Record.make "Ann")] ⟨"Ann", ["1234567890"], none⟩).map Prod.fst).Nodup
    ∧ (∀ n b', AddressBook.delete [("Ann", Record.make "Ann")] n = .ok b'
        → (b'.map Prod.fst).Nodup) :=
  add_record_contract [("Ann", Record.make "Ann")] ⟨"Ann", ["1234567890"], none⟩ (by simp)

/-- All phone strings stored in a record passed `Phone.validate`. -/
def RecordValid (r : Record) : Prop :=
  ∀ p ∈ r.phones, phoneValidate p = true

/-- All records held by the book satisfy `RecordValid`. -/
def BookValid (b : AddressBook) : Prop :=
  ∀ e ∈ b, RecordValid e.2

theorem editPhoneList_ok_mem (phones : List String) (old nw : String)
    (qs : List String) (h : editPhoneList phones old nw = .ok qs) :
    ∀ q ∈ qs, q ∈ phones ∨ (q = nw ∧ phoneValidate nw = true) := by
  induction phones generalizing qs with
  | nil => cases h
  | cons p rest ih =>
    unfold editPhoneList at h
    by_cases hpe : p = old
    · rw [if_pos hpe, mkPhone_eq] at h
      by_cases hv : phoneValidate nw = true
      · rw [if_pos hv] at h
        simp only [Except.map] at h
        cases h
        intro q hq
        rcases List.mem_cons.mp hq with h1 | h2
        · exact Or.inr ⟨h1, hv⟩
        · exact Or.inl (by simp [h2])
      · rw [if_neg hv] at h
        cases h
    · rw [if_neg hpe] at h
      cases heq : editPhoneList rest old nw with
      | error msg => rw [heq] at h; cases h
      | ok qs' =>
        rw [heq] at h
        simp only [Except.map] at h
        cases h
        intro q hq
        rcases List.mem_cons.mp hq with h1 | h2
        · exact Or.inl (by simp [h1])
        · rcases ih qs' heq q h2 with h3 | h4
          · exact Or.inl (by simp [h3])
          · exact Or.inr h4

theorem mem_dictInsert (b : AddressBook) (k : String) (v : Record)
    (e : String × Record) (h : e ∈ dictInsert b k v) :
    e ∈ b ∨ e = (k, v) := by
  induction b with
  | nil => simpa [dictInsert] using h
  | cons e0 rest ih =>
    obtain ⟨k', v'⟩ := e0
    by_cases he : k' = k
    · simp only [dictInsert, if_pos he, List.mem_cons] at h
      rcases h with h1 | h2
      · exact Or.inr h1
      · exact Or.inl (by simp [h2])
    · simp only [dictInsert, if_neg he, List.mem_cons] at h
      rcases h with h1 | h2
      · exact Or.inl (by simp [h1])
      · rcases ih h2 with h3 | h4
        · exact Or.inl (by simp [h3])
        · exact Or.inr h4

/-- C10: every phone value reachable through the book passed phone
validation, and this invariant is preserved by every operation: a fresh
record is valid; `add_phone` and `edit_phone` only store values that
passed the validating `Phone` constructor; `remove_phone` only deletes;
`add_record` and `delete` preserve book-wide validity; and `find` hands
out only valid records. -/
theorem stored_phones_validated :
    (∀ name, RecordValid (Record.make name))
    ∧ (∀ r p r', r.addPhone p = .ok r' → RecordValid r → RecordValid r')
    ∧ (∀ r old nw r', r.editPhone old nw = .ok r' → RecordValid r → RecordValid r')
    ∧ (∀ r p, RecordValid r → RecordValid (r.removePhone p))
    ∧ (∀ b r, BookValid b → RecordValid r → BookValid (b.addRecord r))
    ∧ (∀ b n b', BookValid b → b.delete n = .ok b' → BookValid b')
    ∧ (∀ b n r, BookValid b → b.findName n = some r → RecordValid r) := by
  refine ⟨?_, ?_, ?_, ?_, ?_, ?_, ?_⟩
  · intro name p hp
    simp [Record.make] at hp
  · intro r p r' h hr
    unfold Record.addPhone at h
    rw [mkPhone_eq] at h
    by_cases hv : phoneValidate p = true
    · rw [if_pos hv] at h
      simp only [Except.map] at h
      cases h
      intro q hq
      simp only [List.mem_append, List.mem_singleton] at hq
      rcases hq with h1 | h2
      · exact hr q h1
      · rw [h2]; exact hv
    · rw [if_neg hv] at h
      cases h
  · intro r old nw r' h hr
    unfold Record.editPhone at h
    cases heq : editPhoneList r.phones old nw with
    | error msg => rw [heq] at h; cases h
    | ok qs =>
      rw [heq] at h
      simp only [Except.map] at h
      cases h
      intro q hq
      rcases editPhoneList_ok_mem r.phones old nw qs heq q hq with h1 | h2
      · exact hr q h1
      · rw [h2.1]; exact h2.2
  · intro r p hr q hq
    unfold Record.removePhone at hq
    simp only [List.mem_filter] at hq
    exact hr q hq.1
  · intro b r hb hr e he
    rcases mem_dictInsert b r.name r e he with h1 | h2
    · exact hb e h1
    · rw [h2]; exact hr
  · intro b n b' hb h e he
    unfold AddressBook.delete at h
    by_cases hf : (b.find? fun e => e.1 == n).isSome = true
    · rw [if_pos hf] at h
      cases h
      exact hb e ((eraseKey_sublist b n).mem he)
    · rw [if_neg hf] at h
      cases h
  · intro b n r hb h
    unfold AddressBook.findName at h
    rw [Option.map_eq_some'] at h
    obtain ⟨e, he, hre⟩ := h
    rw [← hre]
    exact hb e (List.mem_of_find?_eq_some he)

theorem stored_phones_validated_w :
    RecordValid (Record.make "Ann")
    ∧ (∃ r', Record.addPhone (Record.make "Ann") "1234567890" = .ok r'
        ∧ RecordValid r') := by
  have h1 := stored_phones_validated.1 "Ann"
  have hok : Record.addPhone (Record.make "Ann") "1234567890"
      = .ok ⟨"Ann", ["1234567890"], none⟩ := rfl
  exact ⟨h1, ⟨⟨"Ann", ["1234567890"], none⟩, hok,
    stored_phones_validated.2.1 (Record.make "Ann") "1234567890" _ hok h1⟩⟩

theorem replaceYear_ok_valid (d d' : Date) (y : Nat)
    (h : d.replaceYear y = .ok d') : d'.validDate = true := by
  unfold Date.replaceYear at h
  split at h
  · cases h
  · split at h
    · next hv => cases h; exact hv
    · cases h

theorem nextBirthdayDate_valid (ub today nb : Date)
    (h : nextBirthdayDate ub today = .ok nb) : nb.validDate = true := by
  unfold nextBirthdayDate at h
  split at h
  · cases h
  · rename_i nb1 heq
    split at h
    · exact replaceYear_ok_valid ub nb (today.year + 1) h
    · cases h
      exact replaceYear_ok_valid ub _ today.year heq

theorem weekdayNum_lt (d : Date) : d.weekdayNum < 7 :=
  Nat.mod_lt _ (by norm_num)

theorem adjustForWeekend_eq (d : Date) :
    adjustForWeekend d =
      if d.weekdayNum = 5 then d.addDays 2
      else if d.weekdayNum = 6 then d.addDays 1
      else d := by
  have hlt : d.weekdayNum < 7 := weekdayNum_lt d
  unfold adjustForWeekend findNextWeekday
  by_cases h5 : d.weekdayNum = 5
  · rw [h5]
    norm_num
    rfl
  · by_cases h6 : d.weekdayNum = 6
    · rw [h6]
      norm_num
    · have hng : ¬ d.weekdayNum ≥ 5 := by omega
      rw [if_neg hng, if_neg h5, if_neg h6]

theorem processRecord_of_window (today : Date) (r : Record) (bd : Birthday) (nb : Date)
    (hb : r.birthday = some bd)
    (hnb : nextBirthdayDate bd.date today = .ok nb)
    (hw : 0 ≤ dateDiff nb today ∧ dateDiff nb today ≤ 7) :
    processRecord today r = .ok (some ⟨r.name, fmtDMY (adjustForWeekend nb)⟩) := by
  unfold processRecord
  rw [hb]
  simp only [hnb]
  rw [if_pos hw]

theorem processRecord_of_no_window (today : Date) (r : Record) (bd : Birthday) (nb : Date)
    (hb : r.birthday = some bd)
    (hnb : nextBirthdayDate bd.date today = .ok nb)
    (hw : ¬ (0 ≤ dateDiff nb today ∧ dateDiff nb today ≤ 7)) :
    processRecord today r = .ok none := by
  unfold processRecord
  rw [hb]
  simp only [hnb]
  rw [if_neg hw]

theorem processRecord_ok_some (today : Date) (r : Record) (c : Congrat)
    (h : processRecord today r = .ok (some c)) :
    ∃ bd nb, r.birthday = some bd ∧ nextBirthdayDate bd.date today = .ok nb
      ∧ (0 ≤ dateDiff nb today ∧ dateDiff nb today ≤ 7)
      ∧ c = ⟨r.name, fmtDMY (adjustForWeekend nb)⟩ := by
  unfold processRecord at h
  split at h
  · cases h
  · rename_i bd hbd
    split at h
    · cases h
    · rename_i x1 nb hnb
      split at h
      · rename_i hw
        cases h
        exact ⟨bd, nb, hbd, hnb, hw, rfl⟩
      · simp at h

theorem gubAux_ok_forall (today : Date) (l : List (String × Record)) (out : List Congrat)
    (h : gubAux today l = .ok out) :
    ∀ e ∈ l, ∃ o, processRecord today e.2 = .ok o := by
  induction l generalizing out with
  | nil => simp
  | cons e rest ih =>
    unfold gubAux at h
    split at h
    · cases h
    · split at h
      · cases h
      · rename_i x1 o hpe x2 tail htail
        intro e1 he1
        rcases List.mem_cons.mp he1 with h1 | h2
        · exact ⟨o, by rw [h1]; exact hpe⟩
        · exact ih tail htail e1 h2

theorem gubAux_ok_mem (today : Date) (l : List (String × Record)) (out : List Congrat)
    (h : gubAux today l = .ok out) (c : Congrat) :
    c ∈ out ↔ ∃ e ∈ l, processRecord today e.2 = .ok (some c) := by
  induction l generalizing out with
  | nil =>
    cases h
    simp
  | cons e rest ih =>
    unfold gubAux at h
    split at h
    · cases h
    · split at h
      · cases h
      · rename_i x1 o hpe x2 tail htail
        cases o with
        | none =>
          cases h
          rw [ih _ htail]
          constructor
          · rintro ⟨e1, he1, hp1⟩
            exact ⟨e1, List.mem_cons_of_mem e he1, hp1⟩
          · rintro ⟨e1, he1, hp1⟩
            rcases List.mem_cons.mp he1 with h1 | h2
            · rw [h1] at hp1
              rw [hpe] at hp1
              simp at hp1
            · exact ⟨e1, h2, hp1⟩
        | some c0 =>
          cases h
          constructor
          · intro hmem
            rcases List.mem_cons.mp hmem with h1 | h2
            · refine ⟨e, List.mem_cons_self e rest, ?_⟩
              rw [h1]
              exact hpe
            · obtain ⟨e1, he1, hp1⟩ := (ih tail htail).mp h2
              exact ⟨e1, List.mem_cons_of_mem e he1, hp1⟩
          · rintro ⟨e1, he1, hp1⟩
            rcases List.mem_cons.mp he1 with h1 | h2
            · rw [h1] at hp1
              rw [hpe] at hp1
              simp only [Except.ok.injEq, Option.some.injEq] at hp1
              exact List.mem_cons.mpr (Or.inl hp1.symm)
            · exact List.mem_cons.mpr (Or.inr ((ih tail htail).mpr ⟨e1, h2, hp1⟩))

theorem nodup_keys_functional (b : AddressBook) (hnd : (b.map Prod.fst).Nodup)
    (k : String) (r r' : Record) (h1 : (k, r) ∈ b) (h2 : (k, r') ∈ b) : r = r' := by
  induction b with
  | nil => cases h1
  | cons e rest ih =>
    simp only [List.map_cons, List.nodup_cons] at hnd
    obtain ⟨hnm, hnd'⟩ := hnd
    rcases List.mem_cons.mp h1 with g1 | g1 <;> rcases List.mem_cons.mp h2 with g2 | g2
    · have : (k, r) = ((k, r') : String × Record) := g1.trans g2.symm
      injection this with _ h
    · exfalso
      apply hnm
      have hk : e.1 = k := by rw [← g1]
      rw [hk]
      exact List.mem_map_of_mem Prod.fst g2
    · exfalso
      apply hnm
      have hk : e.1 = k := by rw [← g2]
      rw [hk]
      exact List.mem_map_of_mem Prod.fst g1
    · exact ih hnd' g1 g2

theorem processRecord_birthday_ok (today : Date) (r : Record) (bd : Birthday)
    (o : Option Congrat) (hbd : r.birthday = some bd)
    (h : processRecord today r = .ok o) :
    ∃ nb, nextBirthdayDate bd.date today = .ok nb := by
  unfold processRecord at h
  split at h
  · rename_i hnone
    rw [hbd] at hnone
    exact Option.noConfusion hnone
  · rename_i bd1 hbd1
    rw [hbd] at hbd1
    injection hbd1 with hbe
    subst hbe
    split at h
    · cases h
    · rename_i x nb hnb
      exact ⟨nb, hnb⟩

/-- C2: for every record that passes the 7-day window filter (its
birthday `bd` yields a next occurrence `nb` with
`0 <= (nb - today).days <= 7`), the emitted row is exactly
`{record's name, strftime of adjust_for_weekend(nb)}`; the adjustment
moves a Saturday date (+2 days) and a Sunday date (+1 day) to the
following Monday and leaves weekday dates unchanged; the shift is never
backward and never more than 2 days; it is applied to the
already-qualified date after the filter and the emission does not
re-check the window. -/
theorem weekend_adjustment_contract (r : Record) (today : Date) (bd : Birthday) (nb : Date)
    (hb : r.birthday = some bd)
    (hnb : nextBirthdayDate bd.date today = .ok nb)
    (hw : 0 ≤ dateDiff nb today ∧ dateDiff nb today ≤ 7) :
    processRecord today r = .ok (some ⟨r.name, fmtDMY (adjustForWeekend nb)⟩)
    ∧ (nb.weekdayNum = 5 →
        adjustForWeekend nb = nb.addDays 2 ∧ (adjustForWeekend nb).weekdayNum = 0)
    ∧ (nb.weekdayNum = 6 →
        adjustForWeekend nb = nb.addDays 1 ∧ (adjustForWeekend nb).weekdayNum = 0)
    ∧ (nb.weekdayNum < 5 → adjustForWeekend nb = nb)
    ∧ nb.toordinal ≤ (adjustForWeekend nb).toordinal
    ∧ (adjustForWeekend nb).toordinal ≤ nb.toordinal + 2 := by
  have hv := nextBirthdayDate_valid bd.date today nb hnb
  have hlt := weekdayNum_lt nb
  have hadj := adjustForWeekend_eq nb
  have hsat : nb.weekdayNum = 5 →
      adjustForWeekend nb = nb.addDays 2 ∧ (adjustForWeekend nb).weekdayNum = 0 := by
    intro h5
    rw [hadj, if_pos h5]
    refine ⟨rfl, ?_⟩
    rw [weekdayNum_addDays nb 2 hv, h5]
  have hsun : nb.weekdayNum = 6 →
      adjustForWeekend nb = nb.addDays 1 ∧ (adjustForWeekend nb).weekdayNum = 0 := by
    intro h6
    have hne5 : ¬ nb.weekdayNum = 5 := by omega
    rw [hadj, if_neg hne5, if_pos h6]
    refine ⟨rfl, ?_⟩
    rw [weekdayNum_addDays nb 1 hv, h6]
  have hwk : nb.weekdayNum < 5 → adjustForWeekend nb = nb := by
    intro hlt5
    have hne5 : ¬ nb.weekdayNum = 5 := by omega
    have hne6 : ¬ nb.weekdayNum = 6 := by omega
    rw [hadj, if_neg hne5, if_neg hne6]
  refine ⟨processRecord_of_window today r bd nb hb hnb hw, hsat, hsun, hwk, ?_, ?_⟩
  · by_cases h5 : nb.weekdayNum = 5
    · rw [(hsat h5).1, toordinal_addDays nb 2 hv]
      omega
    · by_cases h6 : nb.weekdayNum = 6
      · rw [(hsun h6).1, toordinal_addDays nb 1 hv]
        omega
      · rw [hwk (by omega)]
  · by_cases h5 : nb.weekdayNum = 5
    · rw [(hsat h5).1, toordinal_addDays nb 2 hv]
    · by_cases h6 : nb.weekdayNum = 6
      · rw [(hsun h6).1, toordinal_addDays nb 1 hv]
        omega
      · rw [hwk (by omega)]
        omega

theorem weekend_adjustment_contract_w :
    processRecord ⟨2024, 5, 10⟩ ⟨"Ann", [], some ⟨"12.05.1990", ⟨1990, 5, 12⟩⟩⟩
      = .ok (some ⟨"Ann", fmtDMY (adjustForWeekend ⟨2024, 5, 12⟩)⟩)
    ∧ ((Date.mk 2024 5 12).weekdayNum = 5 →
        adjustForWeekend ⟨2024, 5, 12⟩ = (Date.mk 2024 5 12).addDays 2
          ∧ (adjustForWeekend ⟨2024, 5, 12⟩).weekdayNum = 0)
    ∧ ((Date.mk 2024 5 12).weekdayNum = 6 →
        adjustForWeekend ⟨2024, 5, 12⟩ = (Date.mk 2024 5 12).addDays 1
          ∧ (adjustForWeekend ⟨2024, 5, 12⟩).weekdayNum = 0)
    ∧ ((Date.mk 2024 5 12).weekdayNum < 5 →
        adjustForWeekend ⟨2024, 5, 12⟩ = ⟨2024, 5, 12⟩)
    ∧ (Date.mk 2024 5 12).toordinal ≤ (adjustForWeekend ⟨2024, 5, 12⟩).toordinal
    ∧ (adjustForWeekend ⟨2024, 5, 12⟩).toordinal ≤ (Date.mk 2024 5 12).toordinal + 2 :=
  weekend_adjustment_contract ⟨"Ann", [], some ⟨"12.05.1990", ⟨1990, 5, 12⟩⟩⟩
    ⟨2024, 5, 10⟩ ⟨"12.05.1990", ⟨1990, 5, 12⟩⟩ ⟨2024, 5, 12⟩ rfl rfl (by decide)

theorem processRecord_congr (today : Date) (r r' : Record)
    (hn : r.name = r'.name) (hb : r.birthday = r'.birthday) :
    processRecord today r = processRecord today r' := by
  unfold processRecord
  rw [hn, hb]

/-- C3 (behaviour of the modelled query): with the reference date made
an explicit parameter of the embedding, `get_upcoming_birthdays` is a
pure function of the book contents and that date; it reads only each
record's name and birthday, so any two books that agree on those,
queried at the same reference date, yield identical results — there is
no other input.  (The source itself obtains `today` from the wall clock
inside the method, line 96, rather than accepting it as a parameter.) -/
theorem gub_deterministic_in_book_and_today (b b' : AddressBook) (today : Date)
    (h : b.map (fun e => (e.2.name, e.2.birthday))
       = b'.map (fun e => (e.2.name, e.2.birthday))) :
    b.getUpcomingBirthdays today = b'.getUpcomingBirthdays today := by
  induction b generalizing b' with
  | nil =>
    cases b' with
    | nil => rfl
    | cons e' rest' => simp at h
  | cons e rest ih =>
    cases b' with
    | nil => simp at h
    | cons e' rest' =>
      simp only [List.map_cons, List.cons.injEq, Prod.mk.injEq] at h
      obtain ⟨⟨hn, hb⟩, hrest⟩ := h
      unfold AddressBook.getUpcomingBirthdays at ih ⊢
      unfold gubAux
      rw [processRecord_congr today e.2 e'.2 hn hb, ih rest' hrest]

theorem gub_deterministic_in_book_and_today_w :
    AddressBook.getUpcomingBirthdays
        [("Ann", ⟨"Ann", ["1234567890"], some ⟨"12.05.1990", ⟨1990, 5, 12⟩⟩⟩)]
        ⟨2024, 5, 10⟩
      = AddressBook.getUpcomingBirthdays
        [("Ann", ⟨"Ann", [], some ⟨"12.05.1990", ⟨1990, 5, 12⟩⟩⟩)]
        ⟨2024, 5, 10⟩ :=
  gub_deterministic_in_book_and_today
    [("Ann", ⟨"Ann", ["1234567890"], some ⟨"12.05.1990", ⟨1990, 5, 12⟩⟩⟩)]
    [("Ann", ⟨"Ann", [], some ⟨"12.05.1990", ⟨1990, 5, 12⟩⟩⟩)]
    ⟨2024, 5, 10⟩ rfl

/-- C1: in a successful run of `get_upcoming_birthdays` over a book
with unique name keys, a record carrying a birthday contributes a row
to the output if and only if its next occurrence `nb` — the birthday's
month/day in `today`'s year, rolled forward to the next year when
strictly earlier than `today` (that is, `nextBirthdayDate`) — satisfies
`0 <= (nb - today).days <= 7`; in particular a birthday exactly 7 days
out qualifies, 8 days out does not, and a date already passed this year
is re-evaluated against next year, never matched in the past. -/
theorem upcoming_window_contract (b : AddressBook) (today : Date) (out : List Congrat)
    (hok : b.getUpcomingBirthdays today = .ok out)
    (hnd : (b.map Prod.fst).Nodup)
    (hkey : ∀ e ∈ b, e.1 = e.2.name)
    (k : String) (r : Record) (hmem : (k, r) ∈ b)
    (bd : Birthday) (hbd : r.birthday = some bd) :
    ∃ nb, nextBirthdayDate bd.date today = .ok nb
      ∧ ((∃ c ∈ out, c.name = r.name) ↔
          (0 ≤ dateDiff nb today ∧ dateDiff nb today ≤ 7)) := by
  unfold AddressBook.getUpcomingBirthdays at hok
  obtain ⟨o, hpo⟩ := gubAux_ok_forall today b out hok (k, r) hmem
  obtain ⟨nb, hnb⟩ := processRecord_birthday_ok today r bd o hbd hpo
  refine ⟨nb, hnb, ?_⟩
  constructor
  · rintro ⟨c, hc, hcn⟩
    obtain ⟨e1, he1, hp1⟩ := (gubAux_ok_mem today b out hok c).mp hc
    obtain ⟨k1, r1⟩ := e1
    obtain ⟨bd1, nb1, hbd1, hnb1, hw1, hceq⟩ := processRecord_ok_some today r1 c hp1
    have hcname : c.name = r1.name := by rw [hceq]
    have hname : r1.name = r.name := by rw [← hcname, hcn]
    have hk1 : k1 = r1.name := hkey (k1, r1) he1
    have hk : k = r.name := hkey (k, r) hmem
    have he1' : (r.name, r1) ∈ b := by
      rw [← hname, ← hk1]
      exact he1
    have hmem' : (r.name, r) ∈ b := by
      rw [← hk]
      exact hmem
    have hr1r : r1 = r := nodup_keys_functional b hnd r.name r1 r he1' hmem'
    rw [hr1r] at hbd1
    rw [hbd] at hbd1
    injection hbd1 with hbe
    subst hbe
    rw [hnb] at hnb1
    injection hnb1 with hnbe
    subst hnbe
    exact hw1
  · intro hw
    have hp := processRecord_of_window today r bd nb hbd hnb hw
    refine ⟨⟨r.name, fmtDMY (adjustForWeekend nb)⟩, ?_, rfl⟩
    exact (gubAux_ok_mem today b out hok _).mpr ⟨(k, r), hmem, hp⟩

theorem upcoming_window_contract_w :
    ∃ nb, nextBirthdayDate ⟨1990, 5, 12⟩ ⟨2024, 5, 10⟩ = .ok nb
      ∧ ((∃ c ∈ [Congrat.mk "Ann" "13.05.2024"], c.name = "Ann") ↔
          (0 ≤ dateDiff nb ⟨2024, 5, 10⟩ ∧ dateDiff nb ⟨2024, 5, 10⟩ ≤ 7)) :=
  upcoming_window_contract
    [("Ann", ⟨"Ann", [], some ⟨"12.05.1990", ⟨1990, 5, 12⟩⟩⟩)]
    ⟨2024, 5, 10⟩ [Congrat.mk "Ann" "13.05.2024"] rfl (by simp)
    (by intro e he; simp at he; rw [he]) "Ann"
    ⟨"Ann", [], some ⟨"12.05.1990", ⟨1990, 5, 12⟩⟩⟩ (by simp)
    ⟨"12.05.1990", ⟨1990, 5, 12⟩⟩ rfl
